import Mathlib

/-!
Verification of the voice-sandwich streaming event pipeline.

The development shallowly embeds the pipeline core:
* the event model and wire serialization (`src/app/events.py`),
* the fan-in merger `merge_async_iters` (`src/app/utils.py`),
* the agent turn-dispatch stage `_agent_stream` (`src/main.py`),
* the synthesis stage `_tts_stream` / `_process_upstream` (`src/main.py`).

Machine-level details that the claims do not touch (timestamps from the wall
clock, raw socket I/O) are abstracted: event constructors produced inside the
stages are stamped with timestamp 0, since the spec states timestamps are not
used for pipeline ordering.
-/

/-- The eight event variants of the pipeline (`src/app/events.py`).
Each pydantic event class becomes one constructor carrying the class's
payload fields and the `ts` timestamp.  Audio bytes are `List Nat`
(byte values); a tool-call argument mapping is a string-keyed record. -/
inductive VoiceAgentEvent where
  | userInput (audio : List Nat) (ts : Nat)
  | sttChunk (transcript : String) (ts : Nat)
  | sttOutput (transcript : String) (ts : Nat)
  | agentChunk (text : String) (ts : Nat)
  | agentEnd (ts : Nat)
  | toolCall (id name : String) (args : List (String × String)) (ts : Nat)
  | toolResult (toolCallId name result : String) (ts : Nat)
  | ttsChunk (audio : List Nat) (ts : Nat)
deriving DecidableEq

/-- A JSON-ish wire value appearing in the dict built by `event_to_dict`. -/
inductive WireVal where
  | s (v : String)
  | n (v : Nat)
  | kv (v : List (String × String))
deriving DecidableEq

/-- The standard base64 alphabet used by Python's `base64.b64encode`. -/
def b64AlphabetChars : List Char :=
  String.toList "ABCDEFGHIJKLMNOPQRSTUVWXYZabcdefghijklmnopqrstuvwxyz0123456789+/"

/-- Character for one 6-bit group (out-of-range indices give the pad char,
which never happens for valid bytes). -/
def b64Char (n : Nat) : Char := b64AlphabetChars.getD n '='

/-- RFC 4648 base64 of a byte list, as `base64.b64encode` computes it:
3 bytes become 4 sextet characters, with `=` padding for a 1- or 2-byte tail. -/
def b64encode : List Nat → List Char
  | [] => []
  | [a] => [b64Char (a / 4), b64Char (a % 4 * 16), '=', '=']
  | [a, b] => [b64Char (a / 4), b64Char (a % 4 * 16 + b / 16), b64Char (b % 16 * 4), '=']
  | a :: b :: c :: rest =>
      b64Char (a / 4) :: b64Char (a % 4 * 16 + b / 16) ::
        b64Char (b % 16 * 4 + c / 64) :: b64Char (c % 64) :: b64encode rest

/-- `event_to_dict` from `src/app/events.py` (lines 123-157): the wire
record for each variant, in the key order the Python dict literals use. -/
def event_to_dict : VoiceAgentEvent → List (String × WireVal)
  | .userInput _ ts => [("type", .s "user_input"), ("ts", .n ts)]
  | .sttChunk transcript ts =>
      [("type", .s "stt_chunk"), ("transcript", .s transcript), ("ts", .n ts)]
  | .sttOutput transcript ts =>
      [("type", .s "stt_output"), ("transcript", .s transcript), ("ts", .n ts)]
  | .agentChunk text ts =>
      [("type", .s "agent_chunk"), ("text", .s text), ("ts", .n ts)]
  | .agentEnd ts => [("type", .s "agent_end"), ("ts", .n ts)]
  | .toolCall id name args ts =>
      [("type", .s "tool_call"), ("id", .s id), ("name", .s name),
        ("args", .kv args), ("ts", .n ts)]
  | .toolResult toolCallId name result ts =>
      [("type", .s "tool_result"), ("toolCallId", .s toolCallId),
        ("name", .s name), ("result", .s result), ("ts", .n ts)]
  | .ttsChunk audio ts =>
      [("type", .s "tts_chunk"), ("audio", .s (String.mk (b64encode audio))),
        ("ts", .n ts)]

/-- The `type` discriminant string of each variant (the `EventType` values
in `src/app/events.py`). -/
def variantTag : VoiceAgentEvent → String
  | .userInput .. => "user_input"
  | .sttChunk .. => "stt_chunk"
  | .sttOutput .. => "stt_output"
  | .agentChunk .. => "agent_chunk"
  | .agentEnd .. => "agent_end"
  | .toolCall .. => "tool_call"
  | .toolResult .. => "tool_result"
  | .ttsChunk .. => "tts_chunk"

/-- Constructor index of a variant, to state that the `type` discriminant
determines the variant. -/
def variantIdx : VoiceAgentEvent → Nat
  | .userInput .. => 0
  | .sttChunk .. => 1
  | .sttOutput .. => 2
  | .agentChunk .. => 3
  | .agentEnd .. => 4
  | .toolCall .. => 5
  | .toolResult .. => 6
  | .ttsChunk .. => 7

/-- The timestamp field of an event. -/
def tsOf : VoiceAgentEvent → Nat
  | .userInput _ ts => ts
  | .sttChunk _ ts => ts
  | .sttOutput _ ts => ts
  | .agentChunk _ ts => ts
  | .agentEnd ts => ts
  | .toolCall _ _ _ ts => ts
  | .toolResult _ _ _ ts => ts
  | .ttsChunk _ ts => ts

/-- The payload field names each event class declares in `src/app/events.py`
besides `type` and `ts` (e.g. `UserInputEvent` declares `audio`). -/
def payloadFields : VoiceAgentEvent → List String
  | .userInput .. => ["audio"]
  | .sttChunk .. => ["transcript"]
  | .sttOutput .. => ["transcript"]
  | .agentChunk .. => ["text"]
  | .agentEnd .. => []
  | .toolCall .. => ["id", "name", "args"]
  | .toolResult .. => ["tool_call_id", "name", "result"]
  | .ttsChunk .. => ["audio"]

/-! ## Fan-in merger (`merge_async_iters`, `src/app/utils.py` lines 16-51)

Each producer task turns its source into a sequence of queue messages:
`("item", x)` for each yielded item, `("error", exc)` if the source raised,
and a final `("done", None)` from the `finally` block.  The shared queue
delivers an arrival-order interleaving of the producers' message sequences;
the consumer loop reads until every producer reported done, yielding items
and re-raising the first error it dequeues. -/

/-- One message a producer puts on the shared queue. -/
inductive MergeMsg (α ε : Type) where
  | item (a : α)
  | error (e : ε)
  | done
deriving DecidableEq

/-- The exact message sequence one producer task enqueues for a source that
yields `events` and then either finishes (`err = none`) or raises
(`err = some e`): items in order, then the error if any, then `done`. -/
def producerTrace {α ε : Type} (events : List α) (err : Option ε) : List (MergeMsg α ε) :=
  events.map .item ++ (match err with | none => [] | some e => [.error e]) ++ [.done]

/-- How a consumer-loop run ends. -/
inductive MergeResult (ε : Type) where
  | completed
  | failed (e : ε)
  | starved
deriving DecidableEq

/-- The consumer loop of `merge_async_iters`: `remaining` producers have not
yet reported done; process queue messages in arrival order, yielding items,
stopping with `failed` on an error message and with `completed` once
`remaining` hits zero.  `starved` marks the impossible case of an exhausted
queue while producers remain (the real loop would block there forever). -/
def mergeLoop {α ε : Type} : Nat → List (MergeMsg α ε) → List α × MergeResult ε
  | 0, _ => ([], .completed)
  | _ + 1, [] => ([], .starved)
  | n + 1, .item a :: rest =>
      let r := mergeLoop (n + 1) rest
      (a :: r.1, r.2)
  | _ + 1, .error e :: _ => ([], .failed e)
  | n + 1, .done :: rest => mergeLoop n rest

/-- Cleanup actions of the `finally` block of `merge_async_iters`
(lines 42-51): cancel every producer task, gather them, then call each
source's `aclose` hook with exceptions suppressed. -/
inductive MergeCleanupAct where
  | cancelTask (i : Nat)
  | awaitTask (i : Nat)
  | acloseSource (i : Nat)
deriving DecidableEq

/-- The cleanup trace for `n` sources, in the order the `finally` block runs. -/
def mergeCleanup (n : Nat) : List MergeCleanupAct :=
  ((List.range n).map .cancelTask) ++ ((List.range n).map .awaitTask) ++
    ((List.range n).map .acloseSource)

/-- Arrival-order interleavings: `Interleaving as bs cs` holds when `cs`
is a shuffle of `as` and `bs` preserving each list's internal order. -/
inductive Interleaving {α : Type} : List α → List α → List α → Prop
  | nil : Interleaving [] [] []
  | left {a : α} {as bs cs : List α} :
      Interleaving as bs cs → Interleaving (a :: as) bs (a :: cs)
  | right {b : α} {as bs cs : List α} :
      Interleaving as bs cs → Interleaving as (b :: bs) (b :: cs)

/-- Number of `done` messages in an arrival sequence. -/
def countDone {α ε : Type} (ms : List (MergeMsg α ε)) : Nat :=
  (ms.filter (fun m => match m with | .done => true | _ => false)).length

theorem interleaving_nil_left {α : Type} {bs cs : List α}
    (h : Interleaving [] bs cs) : cs = bs := by
  generalize ha : ([] : List α) = as at h
  induction h with
  | nil => rfl
  | left _ _ => cases ha
  | right _ ih => simp_all

theorem interleaving_nil_right {α : Type} {as cs : List α}
    (h : Interleaving as [] cs) : cs = as := by
  generalize hb : ([] : List α) = bs at h
  induction h with
  | nil => rfl
  | left _ ih => simp_all
  | right _ _ => cases hb

theorem interleaving_of_nil_left {α : Type} (bs : List α) : Interleaving [] bs bs := by
  induction bs with
  | nil => exact .nil
  | cons b bs ih => exact .right ih

theorem interleaving_of_nil_right {α : Type} (as : List α) : Interleaving as [] as := by
  induction as with
  | nil => exact .nil
  | cons a as ih => exact .left ih

theorem interleaving_length {α : Type} {as bs cs : List α}
    (h : Interleaving as bs cs) : cs.length = as.length + bs.length := by
  induction h with
  | nil => rfl
  | left _ ih => simp [ih]; omega
  | right _ ih => simp [ih]; omega

theorem mergeLoop_one_complete {α ε : Type} (B : List α) :
    mergeLoop (ε := ε) 1 (B.map .item ++ [.done]) = (B, .completed) := by
  induction B with
  | nil => rfl
  | cons b bs ih => simp [mergeLoop, ih]

theorem mergeLoop_one_failed {α ε : Type} (B : List α) (e : ε) :
    mergeLoop 1 (B.map .item ++ [.error e, .done]) = (B, .failed e) := by
  induction B with
  | nil => rfl
  | cons b bs ih => simp [mergeLoop, ih]

theorem mergeLoop_completed_le_countDone {α ε : Type} :
    ∀ (ms : List (MergeMsg α ε)) (n : Nat),
      (mergeLoop n ms).2 = .completed → n ≤ countDone ms := by
  intro ms
  induction ms with
  | nil =>
    intro n h
    cases n with
    | zero => simp
    | succ k => simp [mergeLoop] at h
  | cons m rest ih =>
    intro n h
    cases n with
    | zero => simp
    | succ k =>
      cases m with
      | item a =>
        simp only [mergeLoop] at h
        have := ih (k + 1) h
        simpa [countDone, List.filter] using this
      | error e => simp [mergeLoop] at h
      | done =>
        have := ih k (by simpa [mergeLoop] using h)
        simp only [countDone, List.filter] at this ⊢
        simp only [List.length_cons]
        omega

theorem mergeLoop_interleave_complete {α ε : Type} {la lb ms : List (MergeMsg α ε)}
    (h : Interleaving la lb ms) :
    ∀ A B : List α, la = A.map .item ++ [.done] → lb = B.map .item ++ [.done] →
      ∃ out, mergeLoop 2 ms = (out, .completed) ∧ Interleaving A B out := by
  induction h with
  | nil =>
    intro A B hA hB
    exact absurd hA.symm (by simp)
  | @left a as bs cs h ih =>
    intro A B hA hB
    cases A with
    | nil =>
      simp only [List.map_nil, List.nil_append, List.cons.injEq] at hA
      obtain ⟨ha, has⟩ := hA
      subst ha
      subst has
      have hcs := interleaving_nil_left h
      subst hcs
      subst hB
      refine ⟨B, ?_, interleaving_of_nil_left B⟩
      show mergeLoop 1 (B.map .item ++ [.done]) = (B, .completed)
      exact mergeLoop_one_complete B
    | cons x A2 =>
      simp only [List.map_cons, List.cons_append, List.cons.injEq] at hA
      obtain ⟨ha, has⟩ := hA
      subst ha
      obtain ⟨out, hout, hint⟩ := ih A2 B has hB
      refine ⟨x :: out, ?_, Interleaving.left hint⟩
      simp [mergeLoop, hout]
  | @right b as bs cs h ih =>
    intro A B hA hB
    cases B with
    | nil =>
      simp only [List.map_nil, List.nil_append, List.cons.injEq] at hB
      obtain ⟨hb, hbs⟩ := hB
      subst hb
      subst hbs
      have hcs := interleaving_nil_right h
      subst hcs
      subst hA
      refine ⟨A, ?_, interleaving_of_nil_right A⟩
      show mergeLoop 1 (A.map .item ++ [.done]) = (A, .completed)
      exact mergeLoop_one_complete A
    | cons y B2 =>
      simp only [List.map_cons, List.cons_append, List.cons.injEq] at hB
      obtain ⟨hb, hbs⟩ := hB
      subst hb
      obtain ⟨out, hout, hint⟩ := ih A B2 hA hbs
      refine ⟨y :: out, ?_, Interleaving.right hint⟩
      simp [mergeLoop, hout]

theorem mergeLoop_interleave_failed {α ε : Type} {la lb ms : List (MergeMsg α ε)}
    (h : Interleaving la lb ms) :
    ∀ (A B : List α) (e : ε), la = A.map .item ++ [.done] →
      lb = B.map .item ++ [.error e, .done] →
      ∃ A1 A2 out, A = A1 ++ A2 ∧ mergeLoop 2 ms = (out, .failed e) ∧
        Interleaving A1 B out := by
  induction h with
  | nil =>
    intro A B e hA hB
    exact absurd hA.symm (by simp)
  | @left a as bs cs h ih =>
    intro A B e hA hB
    cases A with
    | nil =>
      simp only [List.map_nil, List.nil_append, List.cons.injEq] at hA
      obtain ⟨ha, has⟩ := hA
      subst ha
      subst has
      have hcs := interleaving_nil_left h
      subst hcs
      subst hB
      refine ⟨[], [], B, rfl, ?_, interleaving_of_nil_left B⟩
      show mergeLoop 1 (B.map .item ++ [.error e, .done]) = (B, .failed e)
      exact mergeLoop_one_failed B e
    | cons x A2 =>
      simp only [List.map_cons, List.cons_append, List.cons.injEq] at hA
      obtain ⟨ha, has⟩ := hA
      subst ha
      obtain ⟨A1, A2x, out, hsplit, hout, hint⟩ := ih A2 B e has hB
      refine ⟨x :: A1, A2x, x :: out, by simp [hsplit], ?_, Interleaving.left hint⟩
      simp [mergeLoop, hout]
  | @right b as bs cs h ih =>
    intro A B e hA hB
    cases B with
    | nil =>
      simp only [List.map_nil, List.nil_append, List.cons.injEq] at hB
      obtain ⟨hb, hbs⟩ := hB
      subst hb
      refine ⟨[], A, [], rfl, rfl, Interleaving.nil⟩
    | cons y B2 =>
      simp only [List.map_cons, List.cons_append, List.cons.injEq] at hB
      obtain ⟨hb, hbs⟩ := hB
      subst hb
      obtain ⟨A1, A2x, out, hsplit, hout, hint⟩ := ih A B2 e hA hbs
      refine ⟨A1, A2x, y :: out, hsplit, ?_, Interleaving.right hint⟩
      simp [mergeLoop, hout]

/-- C1: merging two finite failure-free sources A (n events) and B (m events)
yields, for every arrival-order interleaving of the producer traces, an output
that is an interleaving of A and B (so it has exactly n+m events with each
source's internal order preserved) and completes; moreover the consumer loop
never reports completion before both producers have enqueued `done`. -/
theorem merge_completeness {α ε : Type} (A B : List α) (ms : List (MergeMsg α ε))
    (h : Interleaving (producerTrace A none) (producerTrace B none) ms) :
    (∃ out, mergeLoop 2 ms = (out, .completed) ∧ Interleaving A B out ∧
        out.length = A.length + B.length) ∧
    (∀ ms2 : List (MergeMsg α ε), countDone ms2 < 2 →
        (mergeLoop 2 ms2).2 ≠ .completed) := by
  constructor
  · have hA : producerTrace A (none : Option ε) = A.map .item ++ [.done] := by
      simp [producerTrace]
    have hB : producerTrace B (none : Option ε) = B.map .item ++ [.done] := by
      simp [producerTrace]
    rw [hA, hB] at h
    obtain ⟨out, hout, hint⟩ := mergeLoop_interleave_complete h A B rfl rfl
    exact ⟨out, hout, hint, interleaving_length hint⟩
  · intro ms2 hcount hc
    have := mergeLoop_completed_le_countDone ms2 2 hc
    omega

/-- Witness run for C1: sources [1, 2] and [3] with arrival order
1, 3, 2, done, done. -/
theorem merge_completeness_witness :
    (∃ out, mergeLoop 2
        ([MergeMsg.item 1, MergeMsg.item 3, MergeMsg.item 2,
          MergeMsg.done, MergeMsg.done] : List (MergeMsg Nat Unit)) = (out, .completed) ∧
        Interleaving [1, 2] [3] out ∧
        out.length = [1, 2].length + [3].length) ∧
    (∀ ms2 : List (MergeMsg Nat Unit), countDone ms2 < 2 →
        (mergeLoop 2 ms2).2 ≠ .completed) :=
  merge_completeness [1, 2] [3]
    [MergeMsg.item 1, MergeMsg.item 3, MergeMsg.item 2, MergeMsg.done, MergeMsg.done]
    (Interleaving.left (.right (.left (.left (.right .nil)))))

/-- C2: if source B fails with `e` (after its items) while source A's trace is
arbitrary, then for every arrival-order interleaving the merged run fails with
exactly `e`; the yielded output interleaves only the prefix A1 of A that
arrived before the failure with B's items (so everything enqueued after the
failure, the suffix A2, is discarded and never yielded); and the merger's
cleanup cancels every producer task and closes every source. -/
theorem merge_fail_fast {α ε : Type} (A B : List α) (e : ε) (ms : List (MergeMsg α ε))
    (h : Interleaving (producerTrace A none) (producerTrace B (some e)) ms) :
    (∃ A1 A2 out, A = A1 ++ A2 ∧ mergeLoop 2 ms = (out, .failed e) ∧
        Interleaving A1 B out) ∧
    (∀ i, i < 2 → MergeCleanupAct.cancelTask i ∈ mergeCleanup 2 ∧
        MergeCleanupAct.acloseSource i ∈ mergeCleanup 2) := by
  constructor
  · have hA : producerTrace A (none : Option ε) = A.map .item ++ [.done] := by
      simp [producerTrace]
    have hB : producerTrace B (some e) = B.map .item ++ [.error e, .done] := by
      simp [producerTrace]
    rw [hA, hB] at h
    exact mergeLoop_interleave_failed h A B e rfl rfl
  · intro i hi
    interval_cases i <;> simp [mergeCleanup, List.range_succ]

/-- Witness run for C2: A = [1] still active, B fails with `()` before A's
items finish arriving; arrival order 1, error, done, done. -/
theorem merge_fail_fast_witness :
    (∃ A1 A2 out, [1] = A1 ++ A2 ∧
        mergeLoop 2
          [MergeMsg.item 1, MergeMsg.error (), MergeMsg.done, MergeMsg.done] =
          (out, .failed ()) ∧
        Interleaving A1 [] out) ∧
    (∀ i, i < 2 → MergeCleanupAct.cancelTask i ∈ mergeCleanup 2 ∧
        MergeCleanupAct.acloseSource i ∈ mergeCleanup 2) :=
  merge_fail_fast [1] [] ()
    [MergeMsg.item 1, MergeMsg.error (), MergeMsg.done, MergeMsg.done]
    (Interleaving.left (.right (.left (.right .nil))))

/-! ## Turn-dispatch stage (`_agent_stream`, `src/main.py` lines 111-150) -/

/-- One tool invocation attached to an assistant message (an entry of
`message.tool_calls`: id, name, and argument mapping). -/
structure ToolCallReq where
  id : String
  name : String
  args : List (String × String)
deriving DecidableEq

/-- One item yielded by `agent.astream(..., stream_mode="messages")` during a
turn: an assistant message (`AIMessage`/`AIMessageChunk`, carrying its `text`
property, its `content` when that is a string, and its tool calls), or a
`ToolMessage` carrying a tool result. -/
inductive AgentStreamItem where
  | aiMessage (text : String) (content : Option String) (toolCalls : List ToolCallReq)
  | toolMessage (toolCallId : String) (name : String) (content : String)
deriving DecidableEq

/-- Lines 127-129 of `src/main.py`: `chunk_text` is `message.text`, falling
back to `message.content` when the text is empty and the content is a string. -/
def chunkTextOf (text : String) (content : Option String) : String :=
  if text = "" then (match content with | some s => s | none => "") else text

/-- Lines 126-146 of `src/main.py`: the events `_agent_stream` yields for one
streamed item: an `agent_chunk` only when the resolved chunk text is
non-empty, then one `tool_call` per tool invocation in the collaborator's own
order; a `ToolMessage` yields one `tool_result`. -/
def itemEvents : AgentStreamItem → List VoiceAgentEvent
  | .aiMessage text content toolCalls =>
      (if chunkTextOf text content = "" then []
        else [.agentChunk (chunkTextOf text content) 0]) ++
        toolCalls.map (fun tc => .toolCall tc.id tc.name tc.args 0)
  | .toolMessage toolCallId name content => [.toolResult toolCallId name content 0]

/-- The block of events one agent turn contributes (lines 125-148): the mapped
stream items followed by the single trailing `agent_end`. -/
def turnBlock (items : List AgentStreamItem) : List VoiceAgentEvent :=
  items.flatMap itemEvents ++ [.agentEnd 0]

/-- `_agent_stream` (lines 112-150) as a sequential function: the stage pulls
one upstream event at a time, re-emits it, and when (and only when) that
event is an `stt_output` it drains one whole agent turn in-line before
pulling the next upstream event.  `oracle k` gives the items the agent
collaborator streams for the k-th turn of the connection; the second result
component collects the transcripts sent to the collaborator. -/
def agentStreamRun (oracle : Nat → List AgentStreamItem) :
    List VoiceAgentEvent → Nat → List VoiceAgentEvent × List String
  | [], _ => ([], [])
  | e :: rest, k =>
    match e with
    | .sttOutput t ts =>
        let tail := agentStreamRun oracle rest (k + 1)
        (.sttOutput t ts :: turnBlock (oracle k) ++ tail.1, t :: tail.2)
    | _ =>
        let tail := agentStreamRun oracle rest k
        (e :: tail.1, tail.2)

/-- Number of `stt_output` events in a list (= number of turns they trigger). -/
def sttOutputCount (l : List VoiceAgentEvent) : Nat :=
  (l.filter (fun e => match e with | .sttOutput .. => true | _ => false)).length

/-- Whether an event is the turn-end marker. -/
def isAgentEnd : VoiceAgentEvent → Bool
  | .agentEnd _ => true
  | _ => false

/-- Whether an event is an assistant text delta. -/
def isAgentChunk : VoiceAgentEvent → Bool
  | .agentChunk .. => true
  | _ => false

theorem agentStreamRun_append (oracle : Nat → List AgentStreamItem)
    (pre post : List VoiceAgentEvent) (k : Nat) :
    (agentStreamRun oracle (pre ++ post) k).1
      = (agentStreamRun oracle pre k).1
        ++ (agentStreamRun oracle post (k + sttOutputCount pre)).1 := by
  induction pre generalizing k with
  | nil => simp [agentStreamRun, sttOutputCount]
  | cons e rest ih =>
    cases e <;>
      simp [agentStreamRun, sttOutputCount, List.filter_cons, ih,
        Nat.add_comm, Nat.add_left_comm, Nat.add_assoc]

/-- C7: the transcripts sent to the agent collaborator are exactly the
transcripts of the `stt_output` events of the input, in input order: every
`stt_output` (TranscriptFinal) starts exactly one turn and no other variant
(in particular `stt_chunk` / TranscriptPartial) ever starts one. -/
theorem turn_trigger_iff (oracle : Nat → List AgentStreamItem)
    (input : List VoiceAgentEvent) (k : Nat) :
    (agentStreamRun oracle input k).2
      = input.filterMap
          (fun e => match e with | .sttOutput t _ => some t | _ => none) := by
  induction input generalizing k with
  | nil => rfl
  | cons e rest ih => cases e <;> simp [agentStreamRun, List.filterMap_cons, ih]

/-- C3 counterexample: with one turn (producing the single delta "Hi") and an
upstream `stt_chunk` queued right behind the triggering `stt_output`, the
stage emits the whole turn — through `agent_end` at position 2 — before the
queued upstream event, which only appears at position 3.  Upstream events
available during the turn are therefore not interleaved with the turn's
events: running a turn does block passthrough. -/
theorem turn_blocks_passthrough_cex :
    ((agentStreamRun (fun _ => [.aiMessage "Hi" none []])
        [.sttOutput "hello" 5, .sttChunk "he" 6] 0).1
      = [.sttOutput "hello" 5, .agentChunk "Hi" 0, .agentEnd 0, .sttChunk "he" 6]) ∧
    ((agentStreamRun (fun _ => [.aiMessage "Hi" none []])
        [.sttOutput "hello" 5, .sttChunk "he" 6] 0).1[2]? = some (.agentEnd 0)) ∧
    ((agentStreamRun (fun _ => [.aiMessage "Hi" none []])
        [.sttOutput "hello" 5, .sttChunk "he" 6] 0).1[3]? = some (.sttChunk "he" 6)) := by
  refine ⟨?_, ?_, ?_⟩ <;> decide

/-- C3 amended: `_agent_stream` is strictly sequential, so running a turn
blocks passthrough: the output for `pre ++ post` is the complete output for
`pre` — including every event of every turn `pre` triggers — followed by the
output for `post`; in particular all events generated by the turn a
TranscriptFinal triggers (ending in its `agent_end`) are emitted before any
later upstream event is passed through. -/
theorem turn_blocks_passthrough (oracle : Nat → List AgentStreamItem)
    (pre post : List VoiceAgentEvent) (k : Nat) (t : String) (ts : Nat) :
    ((agentStreamRun oracle (pre ++ post) k).1
      = (agentStreamRun oracle pre k).1
        ++ (agentStreamRun oracle post (k + sttOutputCount pre)).1) ∧
    ((agentStreamRun oracle (.sttOutput t ts :: post) k).1
      = .sttOutput t ts :: turnBlock (oracle k)
        ++ (agentStreamRun oracle post (k + 1)).1) :=
  ⟨agentStreamRun_append oracle pre post k, rfl⟩

/-- C8: for one streamed agent item, an assistant message whose resolved text
content is empty yields no `agent_chunk`; and a message with non-empty text
and tool invocations yields exactly the delta followed by the tool-call
events in the collaborator's own order. -/
theorem agent_item_mapping :
    (∀ (text : String) (content : Option String) (toolCalls : List ToolCallReq),
        chunkTextOf text content = "" →
        ∀ ev ∈ itemEvents (.aiMessage text content toolCalls),
          isAgentChunk ev = false) ∧
    (∀ (text : String) (content : Option String) (toolCalls : List ToolCallReq),
        chunkTextOf text content ≠ "" →
        itemEvents (.aiMessage text content toolCalls)
          = .agentChunk (chunkTextOf text content) 0 ::
              toolCalls.map (fun tc => .toolCall tc.id tc.name tc.args 0)) := by
  constructor
  · intro text content toolCalls h ev hev
    simp only [itemEvents, h, if_pos, List.nil_append, List.mem_map] at hev
    obtain ⟨tc, _, rfl⟩ := hev
    rfl
  · intro text content toolCalls h
    simp [itemEvents, h]

/-- Witness for C8: the empty-text message with one tool call yields only the
(non-delta) tool-call event, and the "Hi"-text message yields the delta first. -/
theorem agent_item_mapping_witness :
    isAgentChunk (VoiceAgentEvent.toolCall "1" "add_to_order" [] 0) = false ∧
    itemEvents (.aiMessage "Hi" none [⟨"1", "add_to_order", []⟩])
      = .agentChunk "Hi" 0 ::
          [(⟨"1", "add_to_order", []⟩ : ToolCallReq)].map
            (fun tc => .toolCall tc.id tc.name tc.args 0) :=
  ⟨agent_item_mapping.1 "" none [⟨"1", "add_to_order", []⟩] rfl
      (.toolCall "1" "add_to_order" [] 0) (by decide),
    agent_item_mapping.2 "Hi" none [⟨"1", "add_to_order", []⟩] (by decide)⟩

/-! ## Synthesis stage (`_tts_stream` / `_process_upstream`,
`src/main.py` lines 153-173) -/

/-- `_process_upstream` (lines 157-165) as a function of the current buffer
and the remaining input: re-emits every upstream event, appends each
`agent_chunk` text to the buffer, and on `agent_end` sends one synthesis
request carrying `"".join(buffer)` (even when the buffer is empty) and resets
the buffer to empty.  Returns the passthrough events and the synthesis
requests in the order they are sent to the synthesizer. -/
def processUpstream (buf : List String) :
    List VoiceAgentEvent → List VoiceAgentEvent × List String
  | [] => ([], [])
  | e :: rest =>
    match e with
    | .agentChunk t ts =>
        let r := processUpstream (buf ++ [t]) rest
        (.agentChunk t ts :: r.1, r.2)
    | .agentEnd ts =>
        let r := processUpstream [] rest
        (.agentEnd ts :: r.1, String.join buf :: r.2)
    | _ =>
        let r := processUpstream buf rest
        (e :: r.1, r.2)

/-- The `agent_chunk` texts of a list of events, in arrival order. -/
def chunkTexts (l : List VoiceAgentEvent) : List String :=
  l.filterMap (fun e => match e with | .agentChunk t _ => some t | _ => none)

theorem processUpstream_passthrough :
    ∀ (l : List VoiceAgentEvent) (buf : List String),
      (processUpstream buf l).1 = l := by
  intro l
  induction l with
  | nil => intro buf; rfl
  | cons e rest ih => intro buf; cases e <;> simp [processUpstream, ih]

theorem processUpstream_flush_aux (post : List VoiceAgentEvent) (ts : Nat) :
    ∀ (pre : List VoiceAgentEvent) (buf : List String),
      (∀ e ∈ pre, isAgentEnd e = false) →
      (processUpstream buf (pre ++ .agentEnd ts :: post)).2
        = String.join (buf ++ chunkTexts pre) :: (processUpstream [] post).2 := by
  intro pre
  induction pre with
  | nil =>
    intro buf _
    simp [processUpstream, chunkTexts]
  | cons e rest ih =>
    intro buf h
    have he : isAgentEnd e = false := h e (by simp)
    have hrest : ∀ x ∈ rest, isAgentEnd x = false := fun x hx => h x (by simp [hx])
    cases e with
    | agentChunk t ts2 =>
      rw [List.cons_append]
      simp only [processUpstream]
      rw [ih (buf ++ [t]) hrest]
      simp [chunkTexts, List.filterMap_cons, List.append_assoc]
    | agentEnd ts2 => simp [isAgentEnd] at he
    | userInput a ts2 => simpa [processUpstream, chunkTexts] using ih buf hrest
    | sttChunk t ts2 => simpa [processUpstream, chunkTexts] using ih buf hrest
    | sttOutput t ts2 => simpa [processUpstream, chunkTexts] using ih buf hrest
    | toolCall i n a ts2 => simpa [processUpstream, chunkTexts] using ih buf hrest
    | toolResult i n r2 ts2 => simpa [processUpstream, chunkTexts] using ih buf hrest
    | ttsChunk a ts2 => simpa [processUpstream, chunkTexts] using ih buf hrest

/-- C4: on each `agent_end`, the request sent to the synthesizer is exactly
the concatenation, in arrival order, of the `agent_chunk` texts buffered
since the previous flush (the empty string when none were buffered), and the
remaining requests are computed from a freshly emptied buffer, so the next
delta after a flush starts a buffer holding only post-flush text.  Every
upstream event is passed through unchanged regardless of the buffer. -/
theorem synthesis_flush (pre post : List VoiceAgentEvent) (ts : Nat)
    (h : ∀ e ∈ pre, isAgentEnd e = false) :
    ((processUpstream [] (pre ++ .agentEnd ts :: post)).2
      = String.join (chunkTexts pre) :: (processUpstream [] post).2) ∧
    (∀ (buf : List String) (l : List VoiceAgentEvent),
      (processUpstream buf l).1 = l) := by
  constructor
  · simpa using processUpstream_flush_aux post ts pre [] h
  · intro buf l
    exact processUpstream_passthrough l buf

/-- Witness for C4: two buffered deltas flush as "Hi there"; the following
turn end flushes the (reset, still empty) buffer as "". -/
theorem synthesis_flush_witness :
    ((processUpstream []
        ([.agentChunk "Hi" 0, .agentChunk " there" 1] ++ .agentEnd 2 :: [.agentEnd 9])).2
      = String.join (chunkTexts [.agentChunk "Hi" 0, .agentChunk " there" 1])
          :: (processUpstream [] [.agentEnd 9]).2) ∧
    (∀ (buf : List String) (l : List VoiceAgentEvent),
      (processUpstream buf l).1 = l) :=
  synthesis_flush [.agentChunk "Hi" 0, .agentChunk " there" 1] [.agentEnd 9] 2
    (by decide)

/-! ## Merged synthesis output (`_tts_stream`, lines 167-171)

`_tts_stream` fans in `_process_upstream()` with `tts.receive_events()`.
The upstream producer puts each yielded event on the merge queue before
`_process_upstream` resumes past its `yield`, so a turn's `agent_end` is
enqueued strictly before `tts.send_text` runs for that turn's buffer.

Modelled from the spec: the `CartesiaTTS` collaborator class is not under
`src/`.  Per the interface contract, the synthesizer emits `tts_chunk` audio
events on its own schedule, decoupled in time from `sendText` calls, but only
as audio for text it has already been sent.  A schedule decides, arrival by
arrival, whether the next merged-queue entry comes from the upstream producer
or is a synthesizer chunk answering an already-sent request. -/

/-- An entry of the merged output, with provenance: an upstream passthrough
event, or an audio chunk attributed to the synthesis request it answers. -/
inductive TtsOut where
  | up (e : VoiceAgentEvent)
  | audio (req : Nat) (chunk : List Nat)
deriving DecidableEq

/-- State of a merged `_tts_stream` run: remaining upstream events, the text
buffer, the synthesis requests sent so far, and the merged output so far. -/
structure TtsState where
  pending : List VoiceAgentEvent
  buf : List String
  reqs : List String
  out : List TtsOut
deriving DecidableEq

/-- One scheduler choice for the next merged-queue arrival. -/
inductive TtsChoice where
  | upstream
  | synth (k : Nat) (chunk : List Nat)
deriving DecidableEq

/-- One arrival: `upstream` delivers the upstream producer's next event and
runs the buffer/flush bookkeeping of `_process_upstream` (the flush that an
`agent_end` triggers happens after the event is already enqueued); `synth k`
delivers one audio chunk for request `k`, possible only if request `k` has
been sent. -/
def ttsStep (s : TtsState) : TtsChoice → TtsState
  | .upstream =>
    match s.pending with
    | [] => s
    | e :: rest =>
      match e with
      | .agentChunk t ts =>
          { s with
            pending := rest
            buf := s.buf ++ [t]
            out := s.out ++ [.up (.agentChunk t ts)] }
      | .agentEnd ts =>
          { s with
            pending := rest
            buf := []
            reqs := s.reqs ++ [String.join s.buf]
            out := s.out ++ [.up (.agentEnd ts)] }
      | _ => { s with pending := rest, out := s.out ++ [.up e] }
  | .synth k chunk =>
      if k < s.reqs.length then { s with out := s.out ++ [.audio k chunk] }
      else s

/-- A merged run of `_tts_stream` on upstream input `ups` under a schedule. -/
def ttsRun (ups : List VoiceAgentEvent) (sched : List TtsChoice) : TtsState :=
  sched.foldl ttsStep ⟨ups, [], [], []⟩

/-- Number of `agent_end` markers among merged output entries. -/
def outEndCount (l : List TtsOut) : Nat :=
  (l.filter (fun o => match o with | .up (.agentEnd _) => true | _ => false)).length

theorem outEndCount_append (l1 l2 : List TtsOut) :
    outEndCount (l1 ++ l2) = outEndCount l1 + outEndCount l2 := by
  simp [outEndCount, List.filter_append]

/-- The run invariant: no more requests sent than `agent_end` markers
already in the output, and every audio entry for request `k` sits at a
position strictly after at least `k + 1` `agent_end` markers. -/
def ttsInv (s : TtsState) : Prop :=
  s.reqs.length ≤ outEndCount s.out ∧
  ∀ (j k : Nat) (c : List Nat), s.out[j]? = some (.audio k c) →
    k < outEndCount (s.out.take j)

theorem out_positions_append (l : List TtsOut) (x : TtsOut)
    (hx : ∀ k c, x = TtsOut.audio k c → k < outEndCount l)
    (h : ∀ (j k : Nat) (c : List Nat), l[j]? = some (.audio k c) →
      k < outEndCount (l.take j)) :
    ∀ (j k : Nat) (c : List Nat), (l ++ [x])[j]? = some (.audio k c) →
      k < outEndCount ((l ++ [x]).take j) := by
  intro j k c hj
  by_cases hlt : j < l.length
  · rw [List.getElem?_append_left hlt] at hj
    rw [List.take_append_of_le_length (Nat.le_of_lt hlt)]
    exact h j k c hj
  · have hge : l.length ≤ j := Nat.le_of_not_lt hlt
    rw [List.getElem?_append_right hge] at hj
    have hj0 : j - l.length = 0 := by
      by_contra hne
      have : ([x] : List TtsOut)[j - l.length]? = none := by
        apply List.getElem?_eq_none
        simp
        omega
      rw [this] at hj
      cases hj
    rw [hj0] at hj
    simp at hj
    have hjlen : j = l.length := by omega
    subst hjlen
    rw [List.take_append_of_le_length (Nat.le_refl _), List.take_length]
    exact hx k c hj

theorem outEndCount_up (e : VoiceAgentEvent) :
    outEndCount [TtsOut.up e] = if isAgentEnd e then 1 else 0 := by
  cases e <;> rfl

theorem outEndCount_audio (k : Nat) (c : List Nat) :
    outEndCount [TtsOut.audio k c] = 0 := rfl

theorem ttsStep_inv (s : TtsState) (ch : TtsChoice) (h : ttsInv s) :
    ttsInv (ttsStep s ch) := by
  obtain ⟨hr, hpos⟩ := h
  cases ch with
  | upstream =>
    cases hp : s.pending with
    | nil => simpa [ttsStep, hp] using ⟨hr, hpos⟩
    | cons e rest =>
      cases e <;>
        simp only [ttsStep, hp] <;>
        refine ⟨?_, out_positions_append _ _ (by intro k c hx; simp at hx) hpos⟩ <;>
        simp [outEndCount_append, outEndCount_up, isAgentEnd] <;>
        omega
  | synth k chunk =>
    by_cases hk : k < s.reqs.length
    · simp only [ttsStep, if_pos hk]
      refine ⟨?_, out_positions_append _ _ ?_ hpos⟩
      · simp [outEndCount_append, outEndCount_audio]
        omega
      · intro k2 c2 hx
        injection hx with h1 h2
        subst h1
        omega
    · simpa [ttsStep, if_neg hk] using ⟨hr, hpos⟩

theorem ttsRun_inv (ups : List VoiceAgentEvent) (sched : List TtsChoice) :
    ttsInv (ttsRun ups sched) := by
  have general : ∀ (sc : List TtsChoice) (s : TtsState), ttsInv s →
      ttsInv (sc.foldl ttsStep s) := by
    intro sc
    induction sc with
    | nil => intro s hs; exact hs
    | cons c rest ih => intro s hs; exact ih (ttsStep s c) (ttsStep_inv s c hs)
  exact general sched ⟨ups, [], [], []⟩ ⟨by simp [outEndCount], by simp⟩

theorem turnBody_no_end (items : List AgentStreamItem) :
    (items.flatMap itemEvents).filter isAgentEnd = [] := by
  rw [List.filter_eq_nil]
  intro a ha
  rw [List.mem_flatMap] at ha
  obtain ⟨item, _, hmem⟩ := ha
  cases item with
  | aiMessage text content toolCalls =>
    by_cases hc : chunkTextOf text content = "" <;> simp [itemEvents, hc] at hmem
    · obtain ⟨tc, _, rfl⟩ := hmem
      simp [isAgentEnd]
    · rcases hmem with rfl | ⟨tc, _, rfl⟩ <;> simp [isAgentEnd]
  | toolMessage i n c =>
    simp [itemEvents] at hmem
    subst hmem
    simp [isAgentEnd]

theorem turnBlock_filter (items : List AgentStreamItem) :
    (turnBlock items).filter isAgentEnd = [.agentEnd 0] := by
  rw [turnBlock, List.filter_append, turnBody_no_end]
  rfl

theorem sttOutputCount_cons (e : VoiceAgentEvent) (l : List VoiceAgentEvent) :
    sttOutputCount (e :: l)
      = sttOutputCount l + (match e with | .sttOutput .. => 1 | _ => 0) := by
  cases e <;> simp [sttOutputCount, List.filter_cons]

theorem agentStream_end_count (oracle : Nat → List AgentStreamItem) :
    ∀ (input : List VoiceAgentEvent) (k : Nat),
      (∀ e ∈ input, isAgentEnd e = false) →
      ((agentStreamRun oracle input k).1.filter isAgentEnd).length
        = sttOutputCount input := by
  intro input
  induction input with
  | nil => intro k h; simp [agentStreamRun, sttOutputCount]
  | cons e rest ih =>
    intro k h
    have he := h e (by simp)
    have hrest : ∀ x ∈ rest, isAgentEnd x = false := fun x hx => h x (by simp [hx])
    cases e with
    | agentEnd ts => simp [isAgentEnd] at he
    | sttOutput t ts =>
      simp only [agentStreamRun, List.cons_append]
      rw [List.filter_cons_of_neg (by simp [isAgentEnd]), List.filter_append,
        turnBlock_filter]
      simp [ih (k + 1) hrest, sttOutputCount_cons]
    | userInput a ts =>
      simp only [agentStreamRun]
      rw [List.filter_cons_of_neg (by simp [isAgentEnd])]
      simp [ih k hrest, sttOutputCount_cons]
    | sttChunk t ts =>
      simp only [agentStreamRun]
      rw [List.filter_cons_of_neg (by simp [isAgentEnd])]
      simp [ih k hrest, sttOutputCount_cons]
    | agentChunk t ts =>
      simp only [agentStreamRun]
      rw [List.filter_cons_of_neg (by simp [isAgentEnd])]
      simp [ih k hrest, sttOutputCount_cons]
    | toolCall i n a ts =>
      simp only [agentStreamRun]
      rw [List.filter_cons_of_neg (by simp [isAgentEnd])]
      simp [ih k hrest, sttOutputCount_cons]
    | toolResult i n r ts =>
      simp only [agentStreamRun]
      rw [List.filter_cons_of_neg (by simp [isAgentEnd])]
      simp [ih k hrest, sttOutputCount_cons]
    | ttsChunk a ts =>
      simp only [agentStreamRun]
      rw [List.filter_cons_of_neg (by simp [isAgentEnd])]
      simp [ih k hrest, sttOutputCount_cons]

/-- C5: (i) with an `agent_end`-free upstream (as the ingestion stage
produces), `_agent_stream` emits exactly as many `agent_end` markers as there
are `stt_output` events — one per turn; (ii) within one turn's block the
single `agent_end` is the last event, after all of that turn's delta and
tool events; (iii) in every merged `_tts_stream` run, a synthesized-audio
entry answering request `k` sits at a position with at least `k + 1`
`agent_end` markers strictly before it, so the `agent_end` that triggered
flush `k` precedes that flush's audio in the composed output. -/
theorem turn_end_ordering :
    (∀ (oracle : Nat → List AgentStreamItem) (input : List VoiceAgentEvent) (k : Nat),
        (∀ e ∈ input, isAgentEnd e = false) →
        ((agentStreamRun oracle input k).1.filter isAgentEnd).length
          = sttOutputCount input) ∧
    (∀ items : List AgentStreamItem,
        (turnBlock items).filter isAgentEnd = [.agentEnd 0] ∧
        (turnBlock items).getLast? = some (.agentEnd 0)) ∧
    (∀ (ups : List VoiceAgentEvent) (sched : List TtsChoice) (j k : Nat) (c : List Nat),
        (ttsRun ups sched).out[j]? = some (.audio k c) →
        k < outEndCount ((ttsRun ups sched).out.take j)) := by
  refine ⟨agentStream_end_count, ?_, ?_⟩
  · intro items
    exact ⟨turnBlock_filter items, by simp [turnBlock]⟩
  · intro ups sched j k c hj
    exact (ttsRun_inv ups sched).2 j k c hj

/-- Witness for C5: one final transcript yields one `agent_end`; in a run
where the turn's `agent_end` is enqueued and then one audio chunk for flush 0
arrives, the audio's prefix already holds that `agent_end`. -/
theorem turn_end_ordering_witness :
    (((agentStreamRun (fun _ => []) [.sttOutput "hi" 3] 0).1.filter isAgentEnd).length
        = sttOutputCount [.sttOutput "hi" 3]) ∧
    ((turnBlock []).getLast? = some (.agentEnd 0)) ∧
    (0 < outEndCount ((ttsRun [.agentEnd 4] [.upstream, .synth 0 [7]]).out.take 1)) :=
  ⟨turn_end_ordering.1 (fun _ => []) [.sttOutput "hi" 3] 0 (by decide),
    (turn_end_ordering.2.1 []).2,
    turn_end_ordering.2.2 [.agentEnd 4] [.upstream, .synth 0 [7]] 1 0 [7] (by decide)⟩

/-! ## Collaborator connection closing (C6)

The recognizer (`AssemblyAISTT`) and synthesizer (`CartesiaTTS`) client
classes are not under `src/`.  Modelled from the spec: their `close()`
operations are idempotent and always succeed from the caller's perspective
(§6 collaborator contracts), so a connection moves from open to closed on
the first `close()` call and later calls are no-ops.

`_stt_stream` (`src/main.py` lines 87-106) can exit in four ways; the close
calls on each path are read off the control flow:

* normal end: the audio input ends, so `_send_audio`'s `finally` closes the
  recognizer (line 95); the recognizer's event stream then ends (finite
  after close) and the outer `finally` (lines 102-106) cancels the already
  finished send task and closes again (line 106);
* receive failure: `stt.receive_events()` raises; the outer `finally`
  cancels the send task, whose own `finally` closes (line 95), then line
  106 closes again;
* consumer cancellation (the generator is closed from outside): the same
  outer-`finally` path as a receive failure;
* send failure: `_send_audio` raises while sending; its `finally` closes
  (line 95) and the task finishes with the exception stored; when the outer
  `finally` later re-awaits the task (line 105) the exception is re-raised
  (`contextlib.suppress` covers only `CancelledError`), so the close on
  line 106 is never reached — one call in total.

`_tts_stream` (lines 153-173) has a single `finally` (line 171) that closes
the synthesizer once on every exit path. -/

/-- Exit paths of `_stt_stream`. -/
inductive SttExit where
  | normalEnd
  | recvFailure
  | consumerCancel
  | sendFailure
deriving DecidableEq

/-- The two `stt.close()` call sites in `src/main.py`: line 95 inside
`_send_audio`'s `finally`, and line 106 in the stream's own `finally`. -/
inductive CloseSite where
  | sendFinally
  | streamFinally
deriving DecidableEq

/-- The sequence of recognizer `close()` invocations on each exit path of
`_stt_stream`, per the control-flow analysis above. -/
def sttCloseTrace : SttExit → List CloseSite
  | .normalEnd => [.sendFinally, .streamFinally]
  | .recvFailure => [.sendFinally, .streamFinally]
  | .consumerCancel => [.sendFinally, .streamFinally]
  | .sendFailure => [.sendFinally]

/-- Exit paths of `_tts_stream`. -/
inductive TtsExit where
  | normalEnd
  | failure
  | consumerCancel
deriving DecidableEq

/-- The synthesizer `close()` invocations on each exit path of `_tts_stream`:
the single `finally` at line 171 runs exactly once whichever way the
`async for` loop over the merged stream ends. -/
def ttsCloseTrace : TtsExit → List CloseSite
  | _ => [.streamFinally]

/-- Modelled from the spec: an idempotent collaborator `close()`.  Starting
from connection state `conn` (`true` = open), return the final state and the
number of open-to-closed transitions a sequence of `close()` calls causes. -/
def applyCloses : Bool → List CloseSite → Bool × Nat
  | conn, [] => (conn, 0)
  | true, _ :: rest =>
      let r := applyCloses false rest
      (r.1, r.2 + 1)
  | false, _ :: rest => applyCloses false rest

/-- C6: on every exit path of the ingestion stage and of the synthesis stage
(normal end of input, failure, cancellation — plus the send-failure path of
the ingestion stage), the stage's collaborator connection ends closed and
undergoes exactly one open-to-closed transition. -/
theorem close_exactly_once :
    (∀ p : SttExit, applyCloses true (sttCloseTrace p) = (false, 1)) ∧
    (∀ q : TtsExit, applyCloses true (ttsCloseTrace q) = (false, 1)) := by
  constructor
  · intro p
    cases p <;> rfl
  · intro q
    cases q <;> rfl

/-! ## Wire format (C9, C10) -/

theorem b64Char_mem (n : Nat) : b64Char n ∈ b64AlphabetChars ∨ b64Char n = '=' := by
  by_cases h : n < b64AlphabetChars.length
  · left
    rw [b64Char, List.getD_eq_getElem _ _ h]
    exact List.getElem_mem h
  · right
    rw [b64Char, List.getD_eq_default]
    omega

theorem b64encode_text_safe : ∀ (bs : List Nat) (c : Char), c ∈ b64encode bs →
    c ∈ b64AlphabetChars ∨ c = '='
  | [] => by
      intro c h
      simp [b64encode] at h
  | [a] => by
      intro c h
      simp only [b64encode, List.mem_cons, List.not_mem_nil, or_false] at h
      rcases h with rfl | rfl | rfl | rfl
      · exact b64Char_mem _
      · exact b64Char_mem _
      · exact Or.inr rfl
      · exact Or.inr rfl
  | [a, b] => by
      intro c h
      simp only [b64encode, List.mem_cons, List.not_mem_nil, or_false] at h
      rcases h with rfl | rfl | rfl | rfl
      · exact b64Char_mem _
      · exact b64Char_mem _
      · exact b64Char_mem _
      · exact Or.inr rfl
  | a :: b :: c0 :: rest => by
      intro c h
      simp only [b64encode, List.mem_cons] at h
      rcases h with rfl | rfl | rfl | rfl | h
      · exact b64Char_mem _
      · exact b64Char_mem _
      · exact b64Char_mem _
      · exact b64Char_mem _
      · exact b64encode_text_safe rest c h

/-- C9 counterexample: the `UserInput` variant declares the payload field
`audio` (`src/app/events.py` line 26) but its wire record carries no `audio`
key, and two `UserInput` events with different audio payloads encode to the
same record — the payload is not serialized, so the claim that every
variant's encoding carries that variant's payload fields fails at
`UserInput`. -/
theorem wire_payload_fields_cex :
    "audio" ∈ payloadFields (.userInput [0] 0) ∧
    "audio" ∉ (event_to_dict (.userInput [0] 0)).map Prod.fst ∧
    event_to_dict (.userInput [0] 0) = event_to_dict (.userInput [1] 0) := by
  refine ⟨?_, ?_, ?_⟩ <;> decide

/-- C9 amended: `event_to_dict` is total over the eight variants; every
record carries the `type` discriminant (which determines the variant) and
the `ts` timestamp; every variant except `UserInput` carries its payload
values under its documented wire keys (`ToolCompleted`'s call id under
`toolCallId`); `UserInput` omits its audio payload entirely; and the
`SynthesizedAudio` payload is base64 text: every character of the encoded
audio is in the base64 alphabet or is the pad character. -/
theorem event_wire_format :
    (∀ ev : VoiceAgentEvent,
        (event_to_dict ev).lookup "type" = some (.s (variantTag ev)) ∧
        (event_to_dict ev).lookup "ts" = some (.n (tsOf ev))) ∧
    (∀ e1 e2 : VoiceAgentEvent, variantTag e1 = variantTag e2 →
        variantIdx e1 = variantIdx e2) ∧
    (∀ t ts, (event_to_dict (.sttChunk t ts)).lookup "transcript" = some (.s t)) ∧
    (∀ t ts, (event_to_dict (.sttOutput t ts)).lookup "transcript" = some (.s t)) ∧
    (∀ x ts, (event_to_dict (.agentChunk x ts)).lookup "text" = some (.s x)) ∧
    (∀ i n a ts, (event_to_dict (.toolCall i n a ts)).lookup "id" = some (.s i) ∧
        (event_to_dict (.toolCall i n a ts)).lookup "name" = some (.s n) ∧
        (event_to_dict (.toolCall i n a ts)).lookup "args" = some (.kv a)) ∧
    (∀ i n r ts,
        (event_to_dict (.toolResult i n r ts)).lookup "toolCallId" = some (.s i) ∧
        (event_to_dict (.toolResult i n r ts)).lookup "name" = some (.s n) ∧
        (event_to_dict (.toolResult i n r ts)).lookup "result" = some (.s r)) ∧
    (∀ a ts, (event_to_dict (.ttsChunk a ts)).lookup "audio"
          = some (.s (String.mk (b64encode a))) ∧
        ∀ ch ∈ b64encode a, ch ∈ b64AlphabetChars ∨ ch = '=') ∧
    (∀ a1 a2 ts, event_to_dict (.userInput a1 ts) = event_to_dict (.userInput a2 ts)) := by
  refine ⟨?_, ?_, ?_, ?_, ?_, ?_, ?_, ?_, ?_⟩
  · intro ev
    cases ev <;> exact ⟨rfl, rfl⟩
  · intro e1 e2
    cases e1 <;> cases e2 <;> intro h <;> simp only [variantTag] at h <;>
      first
        | rfl
        | exact absurd h (by decide)
  · intro t ts
    rfl
  · intro t ts
    rfl
  · intro x ts
    rfl
  · intro i n a ts
    exact ⟨rfl, rfl, rfl⟩
  · intro i n r ts
    exact ⟨rfl, rfl, rfl⟩
  · intro a ts
    exact ⟨rfl, fun ch hch => b64encode_text_safe a ch hch⟩
  · intro a1 a2 ts
    rfl

/-- Witness for C9's amended theorem at concrete events: the tag/ts lookups
on a concrete tool-call record and the text-safety of one encoded audio
byte string. -/
theorem event_wire_format_witness :
    ((event_to_dict (.toolCall "1" "add_to_order" [("item", "blt")] 9)).lookup "type"
        = some (.s "tool_call") ∧
      (event_to_dict (.toolCall "1" "add_to_order" [("item", "blt")] 9)).lookup "ts"
        = some (.n 9)) ∧
    variantIdx (VoiceAgentEvent.agentEnd 0) = variantIdx (VoiceAgentEvent.agentEnd 7) ∧
    (∀ ch ∈ b64encode [0, 255], ch ∈ b64AlphabetChars ∨ ch = '=') :=
  ⟨event_wire_format.1 (.toolCall "1" "add_to_order" [("item", "blt")] 9),
    event_wire_format.2.1 (.agentEnd 0) (.agentEnd 7) rfl,
    (event_wire_format.2.2.2.2.2.2.2.1 [0, 255] 0).2⟩

/-- C10: the wire record of a `UserInput` event is exactly the `type`
discriminant and the timestamp; the raw audio payload is omitted and never
serialized back to the client. -/
theorem user_input_audio_omitted (audio : List Nat) (ts : Nat) :
    event_to_dict (.userInput audio ts)
      = [("type", .s "user_input"), ("ts", .n ts)] ∧
    "audio" ∉ (event_to_dict (.userInput audio ts)).map Prod.fst := by
  refine ⟨rfl, ?_⟩
  show "audio" ∉ (["type", "ts"] : List String)
  decide
